import Mathlib

/-!
Verification development for the core of a CommonMark tokenizer written in
Rust (`src/construct/list.rs`, `src/construct/partial_title.rs`, `src/lib.rs`).

Bytes are modelled as `Nat` (the numeric value of the `u8`), input as
`List Nat`.  State functions that consume bytes become functions from the
remaining input to an outcome; `State::Nok` becomes `none` / `false`,
`State::Ok` becomes `some rest` / `true` where `rest` is the unconsumed
input.  Code of the repository that is not part of the given sources
(`partial_space_or_tab`, `blank_line`, `util::skip`, parser/compiler) is
modelled from the specification; each such definition is marked.
-/

namespace MD

/-- `LIST_ITEM_VALUE_SIZE_MAX` from `constant.rs` (value given by the spec). -/
def LIST_ITEM_VALUE_SIZE_MAX : Nat := 10

/-- `TAB_SIZE` from `constant.rs` (value given by the spec). -/
def TAB_SIZE : Nat := 4

/-- `u8::is_ascii_digit`: byte is `'0'..='9'` (48..=57). -/
def isAsciiDigit (b : Nat) : Bool := 48 ≤ b && b ≤ 57

/-- Space (32) or horizontal tab (9), as matched by `Some(b'\t' | b' ')`. -/
def isSpaceOrTab (b : Nat) : Bool := b == 32 || b == 9

/-- The `inside` state of `list.rs`: in an ordered list item value.
`size` counts the digits consumed so far.  A digit is consumed while
`size + 1 < LIST_ITEM_VALUE_SIZE_MAX`; a `.` (46) or `)` (41) is accepted
when `!interrupt || size < 2`; anything else is `Nok` (`false`). -/
def insideRun (interrupt : Bool) : List Nat → Nat → Bool
  | [], _ => false
  | b :: rest, size =>
    if isAsciiDigit b && size + 1 < LIST_ITEM_VALUE_SIZE_MAX then
      insideRun interrupt rest (size + 1)
    else if (b == 46 || b == 41) && (!interrupt || size < 2) then
      true
    else
      false

/-- The ordered branch of the `before` state of `list.rs`: the current byte
must be an ASCII digit, and when interrupting it must be `'1'` (49); then
the `inside` loop runs (starting at the same byte, `size = 0`).  `true`
means the opener's value and marker were accepted. -/
def beforeOrdered (interrupt : Bool) (input : List Nat) : Bool :=
  match input with
  | [] => false
  | b :: _ => isAsciiDigit b && (!interrupt || b == 49) && insideRun interrupt input 0

/-- Container state for an open list item (`ContainerState` in the
tokenizer): size of the prefix and whether the first line was blank. -/
structure ContainerS where
  size : Nat
  blank_initial : Bool
deriving DecidableEq

/-- Modelled from the spec: `space_or_tab_min_max`'s consumption loop —
consume space/tab while fewer than `maxN` have been consumed.  Returns the
count consumed and the remaining input. -/
def sotLoop (maxN : Nat) : List Nat → Nat → Nat × List Nat
  | [], size => (size, [])
  | b :: rest, size =>
    if isSpaceOrTab b && size < maxN then
      sotLoop maxN rest (size + 1)
    else
      (size, b :: rest)

/-- Modelled from the spec: `space_or_tab_min_max(min, max)` — consume
between `minN` and `maxN` space-or-tab bytes; `Ok` (`some rest`) only if at
least `minN` were consumed. -/
def spaceOrTabMinMax (minN maxN : Nat) (input : List Nat) : Option (List Nat) :=
  let p := sotLoop maxN input 0
  if minN ≤ p.1 then some p.2 else none

/-- Modelled from the spec: the `blank_line` construct — optional
space/tab, then end of line or end of input. -/
def blankLine (input : List Nat) : Bool :=
  match input.dropWhile isSpaceOrTab with
  | [] => true
  | b :: _ => b == 10

/-- `cont` from `list.rs`: check (with rollback) whether the line is blank;
blank lines go to `blank_cont` (refused when `blank_initial`, else consume
at most `size` space/tab), non-blank lines go to `not_blank_cont` (clear
`blank_initial`, require exactly `size` space/tab).  Returns the updated
container and the rest of the line, or `none` for `Nok`. -/
def cont (c : ContainerS) (input : List Nat) : Option (ContainerS × List Nat) :=
  if blankLine input then
    if c.blank_initial then
      none
    else
      (spaceOrTabMinMax 0 c.size input).map (fun rest => (c, rest))
  else
    (spaceOrTabMinMax c.size c.size input).map
      (fun rest => ((⟨c.size, false⟩ : ContainerS), rest))

/-- Quote bytes accepted by the `escape` state of `partial_title.rs`:
`"` (34), `'` (39), `)` (41). -/
def isQuoteByte (b : Nat) : Bool := b == 34 || b == 39 || b == 41

mutual

/-- The `at_break` state of `partial_title.rs`, specialised to the string
content (events and linking dropped): end of input is `Nok`; a line ending
runs the eol partial (modelled from the spec: one line ending with optional
surrounding space/tab, `Nok` on a blank line) and re-enters `at_break`;
the closing marker closes the title (via `begin`, which consumes it); any
other byte enters title text. -/
def atBreak (m : Nat) (input : List Nat) : Option (List Nat) :=
  match input with
  | [] => none
  | b :: rest =>
    if b == 10 then
      match h : rest.dropWhile isSpaceOrTab with
      | [] => none
      | b' :: rest' => if b' == 10 then none else atBreak m (b' :: rest')
    else if b == m then
      some rest
    else
      titleText m (b :: rest)
termination_by (input.length, 1)
decreasing_by
  · apply Prod.Lex.left
    rw [← h]
    exact Nat.lt_of_le_of_lt ((List.dropWhile_sublist isSpaceOrTab).length_le) (by simp)
  · exact Prod.Lex.right _ (by omega)

/-- The `title` state of `partial_title.rs`: end of input or a line ending
or the closing marker returns to `at_break` (inlined here); `\` (92) goes
to `escape`; any other byte is consumed. -/
def titleText (m : Nat) (input : List Nat) : Option (List Nat) :=
  match input with
  | [] => none
  | b :: rest =>
    if b == 10 then
      match h : rest.dropWhile isSpaceOrTab with
      | [] => none
      | b' :: rest' => if b' == 10 then none else atBreak m (b' :: rest')
    else if b == m then
      some rest
    else if b == 92 then
      escapeSt m rest
    else
      titleText m rest
termination_by (input.length, 0)
decreasing_by
  · apply Prod.Lex.left
    rw [← h]
    exact Nat.lt_of_le_of_lt ((List.dropWhile_sublist isSpaceOrTab).length_le) (by simp)
  · apply Prod.Lex.left
    simp
  · apply Prod.Lex.left
    simp

/-- The `escape` state of `partial_title.rs`: a following `"`, `'` or `)`
is consumed and title text resumes; any other byte resumes title text
without being consumed (the resumed `title` step is inlined). -/
def escapeSt (m : Nat) (input : List Nat) : Option (List Nat) :=
  match input with
  | [] => none
  | b :: rest =>
    if isQuoteByte b then
      titleText m rest
    else if b == 10 then
      match h : rest.dropWhile isSpaceOrTab with
      | [] => none
      | b' :: rest' => if b' == 10 then none else atBreak m (b' :: rest')
    else if b == 92 then
      escapeSt m rest
    else
      titleText m rest
termination_by (input.length, 1)
decreasing_by
  · apply Prod.Lex.left
    simp
  · apply Prod.Lex.left
    rw [← h]
    exact Nat.lt_of_le_of_lt ((List.dropWhile_sublist isSpaceOrTab).length_le) (by simp)
  · apply Prod.Lex.left
    simp
  · apply Prod.Lex.left
    simp

end

/-- The `begin` state of `partial_title.rs`: the closing marker closes the
title; anything else (including end of input) enters the string and falls
into `at_break`. -/
def titleBegin (m : Nat) (input : List Nat) : Option (List Nat) :=
  match input with
  | [] => atBreak m []
  | b :: rest => if b == m then some rest else atBreak m (b :: rest)

/-- The `start` state of `partial_title.rs`: the current byte must be `"`,
`'` or `(` (40); the closing marker is `)` for `(` and the byte itself
otherwise; the marker is consumed and `begin` runs. -/
def titleStart (input : List Nat) : Option (List Nat) :=
  match input with
  | [] => none
  | b :: rest =>
    if b == 34 || b == 39 || b == 40 then
      titleBegin (if b == 40 then 41 else b) rest
    else
      none

/-- Event kind (`EventType` in the tokenizer): enter or exit. -/
inductive EType where
  | enter
  | exit
deriving DecidableEq

/-- Token types relevant to the list resolver (`Token` in the source).
`ListItemPre` stands for the source's list-item-prefix token and
`BlockQuotePre` for the block-quote-prefix token; `Other` covers every
remaining token type. -/
inductive TokenT where
  | ListItem
  | ListItemMarker
  | ListItemValue
  | ListItemPre
  | SpaceOrTab
  | LineEnding
  | BlankLineEnding
  | BlockQuotePre
  | ListOrdered
  | ListUnordered
  | Data
  | Other (n : Nat)
deriving DecidableEq

/-- An event of the log: kind, token type, and the byte offset of its
point (the only part of `Point` the resolver reads). -/
structure Ev where
  etype : EType
  token : TokenT
  point : Nat
deriving DecidableEq

instance : Inhabited Ev := ⟨⟨EType.enter, TokenT.Other 0, 0⟩⟩

/-- Type of list (`Kind` in `list.rs`). -/
inductive Kind where
  | Dot
  | Paren
  | Asterisk
  | Plus
  | Dash
deriving DecidableEq

/-- `Kind::from_byte`: `.` (46), `)` (41), `*` (42), `+` (43), `-` (45);
any other byte hits the `unreachable!` panic, modelled as `none`. -/
def fromByte (b : Nat) : Option Kind :=
  if b = 46 then some Kind.Dot
  else if b = 41 then some Kind.Paren
  else if b = 42 then some Kind.Asterisk
  else if b = 43 then some Kind.Plus
  else if b = 45 then some Kind.Dash
  else none

/-- A candidate list group of the resolver: the tuples
`(kind, balance, index, end)` kept in `lists_wip` / `lists`. -/
structure Grp where
  kind : Kind
  bal : Int
  start : Nat
  fin : Nat
deriving DecidableEq

instance : Inhabited Grp := ⟨⟨Kind.Dot, 0, 0, 0⟩⟩

/-- Token types skipped between sibling list items:
`SpaceOrTab`, `LineEnding`, `BlankLineEnding`, `BlockQuotePrefix`. -/
def wsClassB (t : TokenT) : Bool :=
  t == TokenT.SpaceOrTab || t == TokenT.LineEnding ||
  t == TokenT.BlankLineEnding || t == TokenT.BlockQuotePre

/-- Modelled from the spec: `skip::opt` over the whitespace-class token
set — the first index at or after `i` whose event is not of those types
(the length of the log if none). -/
def skipOptWs (ev : List Ev) (i : Nat) : Nat :=
  i + ((ev.drop i).takeWhile (fun e => wsClassB e.token)).length

/-- Modelled from the spec: relative position of the first event with a
given token type (`skip::to`); `none` when absent (where the source would
index past the end of the log and panic). -/
def findTokenIn (t : TokenT) : List Ev → Option Nat
  | [] => none
  | e :: rest =>
    if e.token == t then some 0 else (findTokenIn t rest).map (· + 1)

/-- Reading the marker kind of the list item entered at index `i`:
`skip::to` the first `ListItemMarker`, read the byte at its point
(`Slice::from_point(...).head()`), and `Kind::from_byte` it.  `none`
models the three panic avenues (no marker event, point past the end of
input, invalid byte). -/
def readKind (ev : List Ev) (bytes : List Nat) (i : Nat) : Option Kind :=
  ((findTokenIn TokenT.ListItemMarker (ev.drop i)).map (i + ·)).bind (fun j =>
    (ev.get? j).bind (fun me => (bytes.get? me.point).bind fromByte))

/-- Modelled from the spec: relative position of the exit matching an
enter of `ListItem`, scanning a log suffix that starts just after the
enter, with `d` the number of inner `ListItem` enters still open. -/
def matchExitIn : List Ev → Nat → Option Nat
  | [], _ => none
  | e :: rest, d =>
    if e.token == TokenT.ListItem then
      match e.etype with
      | EType.enter => (matchExitIn rest (d + 1)).map (· + 1)
      | EType.exit =>
        if d = 0 then some 0 else (matchExitIn rest (d - 1)).map (· + 1)
    else
      (matchExitIn rest d).map (· + 1)

/-- The recorded end of the list item entered at `i`:
`skip::opt(&events, index, &[Token::ListItem]) - 1`, i.e. the index of the
matching exit; when the item never closes the source's skip runs to the
end of the log and the expression yields `events.len() - 1`. -/
def endIndex (ev : List Ev) (i : Nat) : Nat :=
  (((matchExitIn (ev.drop (i + 1)) 0).map (fun r => i + 1 + r)).getD ev.length + 1) - 1

/-- The top-down search of `lists_wip` (head of the list = top of the
stack): the first group with the same kind, the same balance, and only
whitespace-class events strictly between its recorded end and the current
item's start (`before == current.2`). -/
def findExtend (ev : List Ev) (k : Kind) (bal : Int) (i : Nat) : List Grp → Option Nat
  | [] => none
  | g :: rest =>
    if g.kind = k ∧ g.bal = bal ∧ skipOptWs ev (g.fin + 1) = i then
      some 0
    else
      (findExtend ev k bal i rest).map (· + 1)

/-- One pass of `resolve_list_item`'s merge loop, processing the events of
`rest` (which is `ev.drop i`).  `wip` holds the open candidate groups with
the most recent on top (head); `done` holds finalized groups in the order
the source's `lists` vector accumulates them.  `none` models a panic while
reading a marker kind. -/
def scanFrom (ev : List Ev) (bytes : List Nat) :
    List Ev → Nat → Int → List Grp → List Grp → Option (List Grp)
  | [], _, _, wip, done => some (done ++ wip.reverse)
  | e :: rest, i, bal, wip, done =>
    if e.token == TokenT.ListItem then
      match e.etype with
      | EType.enter =>
        match readKind ev bytes i with
        | none => none
        | some k =>
          let fin := endIndex ev i
          match findExtend ev k bal i wip with
          | some idx =>
            let g := wip.getD idx default
            scanFrom ev bytes rest (i + 1) (bal + 1)
              ({ g with fin := fin } :: wip.drop (idx + 1))
              (done ++ (wip.take idx).reverse)
          | none =>
            let t := (wip.takeWhile (fun g => decide (g.fin < i))).length
            scanFrom ev bytes rest (i + 1) (bal + 1)
              ((⟨k, bal, i, fin⟩ : Grp) :: wip.drop t)
              (done ++ (wip.take t).reverse)
      | EType.exit => scanFrom ev bytes rest (i + 1) (bal - 1) wip done
    else
      scanFrom ev bytes rest (i + 1) bal wip done

/-- The merge loop of `resolve_list_item` over a whole log: scan from the
start with empty stacks; at the end `lists.append(&mut lists_wip)`. -/
def resolveGroups (ev : List Ev) (bytes : List Nat) : Option (List Grp) :=
  scanFrom ev bytes ev 0 0 [] []

/-- Token type injected for a group: `ListOrdered` for dot/paren kinds,
`ListUnordered` otherwise. -/
def groupToken : Kind → TokenT
  | Kind.Dot => TokenT.ListOrdered
  | Kind.Paren => TokenT.ListOrdered
  | _ => TokenT.ListUnordered

/-- The inject phase of `resolve_list_item`: for each group, a clone of
its bounding events retyped to the group token, added to the event map at
the group's start index and just after its end index. -/
def resolveEdits (ev : List Ev) (bytes : List Nat) :
    Option (List (Nat × List Ev)) :=
  (resolveGroups ev bytes).map (fun gs =>
    gs.flatMap (fun g =>
      [(g.start, [{ ev.getD g.start default with token := groupToken g.kind }]),
       (g.fin + 1, [{ ev.getD g.fin default with token := groupToken g.kind }])]))

/-- Insertions a sorted event map holds for position `i`, in map order. -/
def editsAt (edits : List (Nat × List Ev)) (i : Nat) : List Ev :=
  (edits.filter (fun p => p.1 == i)).flatMap (fun p => p.2)

/-- Applying an event map: walk the log, emitting the insertions recorded
for each position before the event at that position, and the insertions
for the final position after the last event. -/
def applyGo (edits : List (Nat × List Ev)) : Nat → List Ev → List Ev
  | i, [] => editsAt edits i
  | i, e :: rest => editsAt edits i ++ e :: applyGo edits (i + 1) rest

/-- `resolve_list_item` followed by applying its event-map edits:
the final log, or `none` for a panic. -/
def resolveApply (ev : List Ev) (bytes : List Nat) : Option (List Ev) :=
  (resolveEdits ev bytes).map (fun eds => applyGo eds 0 ev)

/-- A main-pass log of a single `*` list item over the byte source `"*"`. -/
def evOneStar : List Ev :=
  [⟨EType.enter, TokenT.ListItem, 0⟩, ⟨EType.enter, TokenT.ListItemMarker, 0⟩,
   ⟨EType.exit, TokenT.ListItemMarker, 1⟩, ⟨EType.exit, TokenT.ListItem, 1⟩]

/-- Byte source `"*"`. -/
def bytesOneStar : List Nat := [42]

/-- A main-pass log of two list items separated by a line ending; the
second item's marker sits at byte offset 2. -/
def evTwoItems : List Ev :=
  [⟨EType.enter, TokenT.ListItem, 0⟩, ⟨EType.enter, TokenT.ListItemMarker, 0⟩,
   ⟨EType.exit, TokenT.ListItemMarker, 1⟩, ⟨EType.exit, TokenT.ListItem, 1⟩,
   ⟨EType.enter, TokenT.LineEnding, 1⟩, ⟨EType.exit, TokenT.LineEnding, 2⟩,
   ⟨EType.enter, TokenT.ListItem, 2⟩, ⟨EType.enter, TokenT.ListItemMarker, 2⟩,
   ⟨EType.exit, TokenT.ListItemMarker, 3⟩, ⟨EType.exit, TokenT.ListItem, 3⟩]

/-- Byte source `"*\n*"`: both markers are asterisks. -/
def bytesStarStar : List Nat := [42, 10, 42]

/-- Byte source `"*\n-"`: an asterisk marker then a dash marker. -/
def bytesStarDash : List Nat := [42, 10, 45]

/-- The two-item log with a `Data` span between the items instead of the
line ending (an event outside the whitespace class). -/
def evSplitItems : List Ev :=
  [⟨EType.enter, TokenT.ListItem, 0⟩, ⟨EType.enter, TokenT.ListItemMarker, 0⟩,
   ⟨EType.exit, TokenT.ListItemMarker, 1⟩, ⟨EType.exit, TokenT.ListItem, 1⟩,
   ⟨EType.enter, TokenT.Data, 1⟩, ⟨EType.exit, TokenT.Data, 2⟩,
   ⟨EType.enter, TokenT.ListItem, 2⟩, ⟨EType.enter, TokenT.ListItemMarker, 2⟩,
   ⟨EType.exit, TokenT.ListItemMarker, 3⟩, ⟨EType.exit, TokenT.ListItem, 3⟩]

/-- A log with no list items at all. -/
def evNoList : List Ev :=
  [⟨EType.enter, TokenT.Data, 0⟩, ⟨EType.exit, TokenT.Data, 1⟩]

/-- Outcome of the opening part of the list construct (`start` through the
marker states): `nok` carries the events emitted and not rolled back by
`start` itself; `proceeded` carries the events and the input left after
the marker, for the continuation states (`marker_after` onward) that are
outside this claim's scope. -/
inductive StartOutcome where
  | nok (events : List (EType × TokenT))
  | proceeded (events : List (EType × TokenT)) (rest : List Nat)
deriving DecidableEq

/-- The `inside` loop of `list.rs` with its event emissions: digits are
consumed silently; an accepted `.`/`)` exits the value, then the `marker`
state enters the marker token, consumes it and exits it; otherwise `Nok`
leaves the accumulated events as they are. -/
def insideEv (interrupt : Bool) : List Nat → Nat → List (EType × TokenT) → StartOutcome
  | [], _, acc => StartOutcome.nok acc
  | b :: rest, size, acc =>
    if isAsciiDigit b && size + 1 < LIST_ITEM_VALUE_SIZE_MAX then
      insideEv interrupt rest (size + 1) acc
    else if (b == 46 || b == 41) && (!interrupt || size < 2) then
      StartOutcome.proceeded
        (acc ++ [(EType.exit, TokenT.ListItemValue),
                 (EType.enter, TokenT.ListItemMarker),
                 (EType.exit, TokenT.ListItemMarker)]) rest
    else
      StartOutcome.nok acc

/-- The indent cap of `list.rs::start`: at most `TAB_SIZE - 1` when
indented code is enabled, effectively unlimited otherwise. -/
def maxIndent (codeIndented : Bool) (input : List Nat) : Nat :=
  if codeIndented then TAB_SIZE - 1 else input.length

/-- Space/tab consumed by `go(space_or_tab_min_max(0, max), before)`. -/
def leadCount (codeIndented : Bool) (input : List Nat) : Nat :=
  min ((input.takeWhile isSpaceOrTab).length) (maxIndent codeIndented input)

/-- Events emitted by the optional-indent partial: a `SpaceOrTab` span iff
any byte was consumed. -/
def indentEvents (codeIndented : Bool) (input : List Nat) : List (EType × TokenT) :=
  if leadCount codeIndented input == 0 then []
  else [(EType.enter, TokenT.SpaceOrTab), (EType.exit, TokenT.SpaceOrTab)]

/-- `start` and `before` of `list.rs` (through the marker): when the list
construct is disabled, `Nok` with no events; otherwise `Enter(ListItem)`
is emitted first, optional indent runs (at most `TAB_SIZE - 1` when
indented code is enabled), and the byte after the indent decides:
`*`/`+`/`-` checks for a thematic break (`isTB`, modelled from the spec as
an external look-ahead with rollback) and otherwise enters the prefix and
marker; an acceptable digit enters the prefix and value and runs the
`inside` loop; anything else is `Nok`, keeping the events emitted so far. -/
def listStart (listEnabled codeIndented : Bool) (isTB : List Nat → Bool)
    (interrupt : Bool) (input : List Nat) : StartOutcome :=
  if listEnabled then
    match input.drop (leadCount codeIndented input) with
    | [] =>
      StartOutcome.nok ((EType.enter, TokenT.ListItem) ::
        indentEvents codeIndented input)
    | b :: brest =>
      if b == 42 || b == 43 || b == 45 then
        if isTB (b :: brest) then
          StartOutcome.nok ((EType.enter, TokenT.ListItem) ::
            indentEvents codeIndented input)
        else
          StartOutcome.proceeded
            (((EType.enter, TokenT.ListItem) ::
              indentEvents codeIndented input) ++
             [(EType.enter, TokenT.ListItemPre),
              (EType.enter, TokenT.ListItemMarker),
              (EType.exit, TokenT.ListItemMarker)]) brest
      else if isAsciiDigit b && (!interrupt || b == 49) then
        insideEv interrupt (b :: brest) 0
          (((EType.enter, TokenT.ListItem) ::
            indentEvents codeIndented input) ++
           [(EType.enter, TokenT.ListItemPre),
            (EType.enter, TokenT.ListItemValue)])
      else
        StartOutcome.nok ((EType.enter, TokenT.ListItem) ::
          indentEvents codeIndented input)
  else
    StartOutcome.nok []

/-- Compile options of the façade (`CompileOptions` in the source). -/
structure CompileOptions where
  allow_dangerous_html : Bool
deriving DecidableEq

/-- `CompileOptions::default()`: raw HTML is not allowed. -/
def CompileOptions.default : CompileOptions := ⟨false⟩

/-- `micromark_with_options` from `lib.rs`: parse, then compile with the
given options.  The parser and compiler live outside the given sources and
are modelled from the spec as pure functions passed in (`parse` yields the
event log and codes, `compile` consumes them and the options). -/
def micromark_with_options {E C : Type} (parse : String → E × C)
    (compile : E → C → CompileOptions → String)
    (value : String) (options : CompileOptions) : String :=
  let p := parse value
  compile p.1 p.2 options

/-- `micromark` from `lib.rs`: `micromark_with_options` at the default
compile options. -/
def micromark {E C : Type} (parse : String → E × C)
    (compile : E → C → CompileOptions → String) (value : String) : String :=
  micromark_with_options parse compile value CompileOptions.default

/-! ## Theorems -/

theorem isAsciiDigit_of_marker {m : Nat} (h : m = 46 ∨ m = 41) :
    isAsciiDigit m = false := by
  rcases h with rfl | rfl <;> decide

/-- Characterization of the `inside` loop: starting at `size = s ≤ 9`, it
accepts exactly the inputs that begin with a run of digits keeping the
total size at most 9, followed by `.` or `)`, with the run shorter than 2
when interrupting. -/
theorem insideRun_iff (intr : Bool) :
    ∀ (input : List Nat) (s : Nat), s ≤ 9 →
      (insideRun intr input s = true ↔
        ∃ ds m rest, input = ds ++ m :: rest ∧
          (∀ d ∈ ds, isAsciiDigit d = true) ∧ s + ds.length ≤ 9 ∧
          (m = 46 ∨ m = 41) ∧ (intr = false ∨ s + ds.length < 2)) := by
  intro input
  induction input with
  | nil =>
    intro s _
    simp only [insideRun]
    apply iff_of_false (by simp)
    rintro ⟨ds, m, rest, h, -⟩
    cases ds <;> simp at h
  | cons b rest ih =>
    intro s hs
    rw [insideRun]
    by_cases h1 : isAsciiDigit b = true ∧ s + 1 < LIST_ITEM_VALUE_SIZE_MAX
    · rw [if_pos (by simp [h1.1, h1.2])]
      have hs1 : s + 1 ≤ 9 := by
        have := h1.2
        simp [LIST_ITEM_VALUE_SIZE_MAX] at this
        omega
      rw [ih (s + 1) hs1]
      constructor
      · rintro ⟨ds, m, r, hr, hds, hlen, hm, hint⟩
        exact ⟨b :: ds, m, r, by simp [hr], by
          intro d hd
          rcases List.mem_cons.mp hd with rfl | hd
          · exact h1.1
          · exact hds d hd, by simp; omega, hm, by
          rcases hint with h | h
          · exact Or.inl h
          · exact Or.inr (by (try simp only [List.length_cons] at h ⊢); omega)⟩
      · rintro ⟨ds, m, r, hr, hds, hlen, hm, hint⟩
        cases ds with
        | nil =>
          simp at hr
          exact absurd h1.1 (by
            rw [hr.1]
            simp [isAsciiDigit_of_marker hm])
        | cons d ds' =>
          simp at hr
          exact ⟨ds', m, r, hr.2, fun x hx => hds x (List.mem_cons_of_mem d hx),
            by (try simp only [List.length_cons] at hlen ⊢); omega, hm, by
            rcases hint with h | h
            · exact Or.inl h
            · exact Or.inr (by (try simp only [List.length_cons] at h ⊢); omega)⟩
    · rw [if_neg (by
        intro hc
        simp at hc
        exact h1 ⟨hc.1, hc.2⟩)]
      by_cases h2 : (b = 46 ∨ b = 41) ∧ (intr = false ∨ s < 2)
      · rw [if_pos (by
          rcases h2 with ⟨hb, hi⟩
          have hbb : (b == 46 || b == 41) = true := by
            rcases hb with rfl | rfl <;> decide
          rcases hi with hi | hi
          · simp [hbb, hi]
          · simp [hbb, hi])]
        simp only [true_iff]
        exact ⟨[], b, rest, by simp, by simp, by simpa using hs, h2.1,
          by simpa using h2.2⟩
      · rw [if_neg (by
          intro hc
          simp at hc
          rcases hc with ⟨hb, hi⟩
          refine h2 ⟨?_, ?_⟩
          · rcases hb with hb | hb
            · exact Or.inl (by omega)
            · exact Or.inr (by omega)
          · rcases hi with hi | hi
            · exact Or.inl (by simpa using hi)
            · exact Or.inr hi)]
        apply iff_of_false (by simp)
        rintro ⟨ds, m, r, hr, hds, hlen, hm, hint⟩
        cases ds with
        | nil =>
          simp at hr
          refine h2 ?_
          rw [hr.1]
          exact ⟨hm, by
            rcases hint with h | h
            · exact Or.inl h
            · exact Or.inr (by (try simp only [List.length_cons] at h); omega)⟩
        | cons d ds' =>
          simp at hr hlen
          refine h1 ⟨by rw [hr.1]; exact hds d (by simp), ?_⟩
          simp [LIST_ITEM_VALUE_SIZE_MAX]
          omega

/-- Claim C4: when not interrupting, the ordered opener accepts exactly a
value of 1 to 9 ASCII digits followed by `.` or `)`; a value that would
contain a 10th digit is rejected with `Nok`. -/
theorem ordered_value_one_to_nine :
    (∀ input : List Nat,
      beforeOrdered false input = true ↔
        ∃ ds m rest, input = ds ++ m :: rest ∧ ds ≠ [] ∧ ds.length ≤ 9 ∧
          (∀ d ∈ ds, isAsciiDigit d = true) ∧ (m = 46 ∨ m = 41)) ∧
    (∀ ds rest : List Nat, (∀ d ∈ ds, isAsciiDigit d = true) →
      ds.length = 10 → beforeOrdered false (ds ++ rest) = false) := by
  constructor
  · intro input
    cases input with
    | nil =>
      simp only [beforeOrdered]
      apply iff_of_false (by simp)
      rintro ⟨ds, m, rest, h, -⟩
      cases ds <;> simp at h
    | cons b tl =>
      rw [beforeOrdered]
      constructor
      · intro h
        simp only [Bool.and_eq_true] at h
        obtain ⟨⟨hdig, -⟩, hrun⟩ := h
        obtain ⟨ds, m, r, hr, hds, hlen, hm, -⟩ :=
          (insideRun_iff false (b :: tl) 0 (by omega)).mp hrun
        refine ⟨ds, m, r, hr, ?_, by omega, hds, hm⟩
        intro hnil
        subst hnil
        simp at hr
        rw [hr.1] at hdig
        simp [isAsciiDigit_of_marker hm] at hdig
      · rintro ⟨ds, m, r, hr, hne, hlen, hds, hm⟩
        have hrun : insideRun false (b :: tl) 0 = true :=
          (insideRun_iff false (b :: tl) 0 (by omega)).mpr
            ⟨ds, m, r, hr, hds, by omega, hm, Or.inl rfl⟩
        have hdig : isAsciiDigit b = true := by
          cases ds with
          | nil => exact absurd rfl hne
          | cons d ds' =>
            simp at hr
            rw [hr.1]
            exact hds d (by simp)
        simp [hdig, hrun]
  · intro ds rest hds hlen
    by_contra hcon
    simp only [Bool.not_eq_false] at hcon
    have hd : ds ++ rest = [] ∨ ∃ b tl, ds ++ rest = b :: tl := by
      cases h : ds ++ rest with
      | nil => exact Or.inl rfl
      | cons b tl => exact Or.inr ⟨b, tl, rfl⟩
    rcases hd with hd | ⟨b, tl, hd⟩
    · rw [hd] at hcon
      simp [beforeOrdered] at hcon
    · rw [hd, beforeOrdered] at hcon
      simp only [Bool.and_eq_true] at hcon
      obtain ⟨-, hrun⟩ := hcon
      rw [← hd] at hrun
      obtain ⟨ds₂, m₂, r₂, hr, -, hlen₂, hm₂, -⟩ :=
        (insideRun_iff false (ds ++ rest) 0 (by omega)).mp hrun
      have hme : (ds₂ ++ m₂ :: r₂).get? ds₂.length = some m₂ := by
        rw [List.get?_append_right (Nat.le_refl _)]
        simp
      rw [← hr] at hme
      have hlt : ds₂.length < ds.length := by omega
      rw [List.get?_append hlt] at hme
      have hmem : m₂ ∈ ds := List.get?_mem hme
      have := hds m₂ hmem
      rw [isAsciiDigit_of_marker hm₂] at this
      exact Bool.false_ne_true this

/-- Claim C4 witness: `"1."` is accepted, a 10-digit value is refused. -/
theorem ordered_value_one_to_nine_wit :
    beforeOrdered false [49, 46] = true ∧
    beforeOrdered false ([49, 50, 51, 52, 53, 54, 55, 56, 57, 48] ++ [46]) = false := by
  refine ⟨?_, ?_⟩
  · exact (ordered_value_one_to_nine.1 [49, 46]).mpr
      ⟨[49], 46, [], by decide, by decide, by decide, by decide, by decide⟩
  · exact ordered_value_one_to_nine.2 [49, 50, 51, 52, 53, 54, 55, 56, 57, 48] [46]
      (by decide) (by decide)

/-- Claim C1 counterexample: with `interrupt`, the input `"12."` has its
first byte `'1'` and a 2-digit value followed by `.`, which the claim says
is accepted, yet the code answers `Nok`. -/
theorem interrupt_two_digits_cex :
    (([49, 50, 46] : List Nat) = [49, 50] ++ 46 :: ([] : List Nat) ∧
      ([49, 50] : List Nat).head? = some 49 ∧
      ([49, 50] : List Nat).length ≤ 2 ∧
      (∀ d ∈ ([49, 50] : List Nat), isAsciiDigit d = true) ∧
      ((46 : Nat) = 46 ∨ (46 : Nat) = 41)) ∧
    beforeOrdered true [49, 50, 46] = false := by decide

/-- Claim C1 (amended): when interrupting a paragraph, an ordered opener
is accepted iff the value is the single digit `'1'` immediately followed
by `.` or `)`; when not interrupting, any ASCII digit may start the
value. -/
theorem interrupt_ordered_opener :
    ∀ (input : List Nat) (b : Nat) (rest : List Nat),
      (beforeOrdered true input = true ↔
        ∃ m tail, input = 49 :: m :: tail ∧ (m = 46 ∨ m = 41)) ∧
      (isAsciiDigit b = true → beforeOrdered false (b :: 46 :: rest) = true) := by
  intro input b rest
  constructor
  · cases input with
    | nil =>
      simp only [beforeOrdered]
      apply iff_of_false (by simp)
      rintro ⟨m, tl, h, -⟩
      simp at h
    | cons c tl =>
      rw [beforeOrdered]
      constructor
      · intro h
        simp only [Bool.and_eq_true] at h
        obtain ⟨⟨-, hone⟩, hrun⟩ := h
        simp only [Bool.or_eq_true, Bool.not_eq_true', beq_iff_eq] at hone
        rcases hone with hone | hone
        · cases hone
        obtain ⟨ds, m, r, hr, hds, -, hm, hint⟩ :=
          (insideRun_iff true (c :: tl) 0 (by omega)).mp hrun
        rcases hint with hint | hint
        · cases hint
        cases ds with
        | nil =>
          simp at hr
          rw [hr.1] at hone
          rw [hone] at hm
          rcases hm with h | h <;> omega
        | cons d ds' =>
          cases ds' with
          | nil =>
            simp at hr
            refine ⟨m, r, ?_, hm⟩
            rw [← hone, hr.1, hr.2]
          | cons d' ds'' =>
            exfalso
            try simp only [List.length_cons, Nat.zero_add] at hint
            omega
      · rintro ⟨m, tl', hin, hm⟩
        have hrun : insideRun true (49 :: m :: tl') 0 = true := by
          rw [insideRun, if_pos (by decide), insideRun]
          rw [if_neg (by simp [isAsciiDigit_of_marker hm])]
          rw [if_pos (by rcases hm with rfl | rfl <;> decide)]
        injection hin with hc htl
        subst hc
        subst htl
        simp [hrun, isAsciiDigit]
  · intro hb
    have : insideRun false (b :: 46 :: rest) 0 = true := by
      rw [insideRun, if_pos (by simp [hb, LIST_ITEM_VALUE_SIZE_MAX]), insideRun]
      rw [if_neg (by decide), if_pos (by decide)]
    simp [beforeOrdered, hb, this]

/-- Claim C1 witness: with `interrupt`, `"1)"` is accepted and the
characterization applies to it; without, `"7."` is accepted. -/
theorem interrupt_ordered_opener_wit :
    beforeOrdered true [49, 41, 97] = true ∧ beforeOrdered false [55, 46] = true := by
  constructor
  · exact (interrupt_ordered_opener [49, 41, 97] 55 []).1.mpr
      ⟨41, [97], rfl, by decide⟩
  · exact (interrupt_ordered_opener [49, 41, 97] 55 []).2 (by decide)

/-- The space-or-tab loop consumes exactly the shorter of the leading
space/tab run and the room left below `maxN`. -/
theorem sotLoop_spec :
    ∀ (input : List Nat) (maxN s : Nat),
      sotLoop maxN input s =
        (s + min ((input.takeWhile isSpaceOrTab).length) (maxN - s),
         input.drop (min ((input.takeWhile isSpaceOrTab).length) (maxN - s))) := by
  intro input
  induction input with
  | nil => intro maxN s; simp [sotLoop]
  | cons b rest ih =>
    intro maxN s
    rw [sotLoop]
    by_cases hb : isSpaceOrTab b = true
    · by_cases hs : s < maxN
      · rw [if_pos (by simp [hb, hs])]
        rw [ih maxN (s + 1)]
        rw [List.takeWhile_cons_of_pos hb]
        have hmin : min ((b :: rest.takeWhile isSpaceOrTab).length) (maxN - s) =
            1 + min ((rest.takeWhile isSpaceOrTab).length) (maxN - (s + 1)) := by
          simp only [List.length_cons]
          omega
        rw [hmin]
        simp only [Prod.mk.injEq]
        refine ⟨by omega, ?_⟩
        rw [Nat.add_comm 1]
        simp
      · rw [if_neg (by simp [hs])]
        have h0 : maxN - s = 0 := by omega
        simp [h0]
    · rw [if_neg (by simp [hb])]
      rw [List.takeWhile_cons_of_neg (by simp [hb])]
      simp

/-- `space_or_tab_min_max(size, size)` succeeds iff the line has at least
`size` leading space/tab bytes, consuming exactly `size` of them. -/
theorem spaceOrTabMinMax_exact (size : Nat) (input : List Nat) :
    spaceOrTabMinMax size size input =
      if size ≤ (input.takeWhile isSpaceOrTab).length then
        some (input.drop size)
      else none := by
  rw [spaceOrTabMinMax, sotLoop_spec]
  by_cases h : size ≤ (input.takeWhile isSpaceOrTab).length
  · rw [if_pos h]
    have : min ((input.takeWhile isSpaceOrTab).length) (size - 0) = size := by omega
    simp only []
    rw [if_pos (by simp; omega)]
    rw [this]
  · rw [if_neg h]
    rw [if_neg (by simp; omega)]

/-- `space_or_tab_min_max(0, size)` always succeeds, consuming the shorter
of the leading space/tab run and `size`. -/
theorem spaceOrTabMinMax_zero (size : Nat) (input : List Nat) :
    spaceOrTabMinMax 0 size input =
      some (input.drop (min ((input.takeWhile isSpaceOrTab).length) size)) := by
  rw [spaceOrTabMinMax, sotLoop_spec]
  simp

/-- Claim C5 counterexample: `size = 1`, non-blank line `"  x"` with two
leading spaces — the claim says `Nok` on more than `size` leading
space/tab, but `cont` succeeds, consuming one space. -/
theorem cont_more_spaces_cex :
    blankLine [32, 32, 120] = false ∧
    (([32, 32, 120] : List Nat).takeWhile isSpaceOrTab).length = 2 ∧
    cont ⟨1, false⟩ [32, 32, 120] = some (⟨1, false⟩, [32, 120]) := by decide

/-- Claim C5 (amended): on a blank line `cont` is `Nok` when
`blank_initial` is set and otherwise consumes at most `size` leading
space/tab and succeeds with the container unchanged; on a non-blank line
it requires at least `size` leading space/tab (`Nok` on fewer), consumes
exactly `size`, and clears `blank_initial`. -/
theorem cont_continuation :
    ∀ (c : ContainerS) (input : List Nat),
      (blankLine input = true → c.blank_initial = true → cont c input = none) ∧
      (blankLine input = true → c.blank_initial = false →
        cont c input =
          some (c, input.drop
            (min ((input.takeWhile isSpaceOrTab).length) c.size))) ∧
      (blankLine input = false →
        c.size ≤ (input.takeWhile isSpaceOrTab).length →
        cont c input = some (⟨c.size, false⟩, input.drop c.size)) ∧
      (blankLine input = false →
        (input.takeWhile isSpaceOrTab).length < c.size →
        cont c input = none) := by
  intro c input
  refine ⟨?_, ?_, ?_, ?_⟩
  · intro hb hbi
    rw [cont, if_pos hb, if_pos hbi]
  · intro hb hbi
    rw [cont, if_pos hb, if_neg (by rw [hbi]; exact Bool.false_ne_true),
      spaceOrTabMinMax_zero]
    rfl
  · intro hb hs
    rw [cont, if_neg (by rw [hb]; exact Bool.false_ne_true),
      spaceOrTabMinMax_exact, if_pos hs]
    rfl
  · intro hb hs
    rw [cont, if_neg (by rw [hb]; exact Bool.false_ne_true),
      spaceOrTabMinMax_exact, if_neg (by omega)]
    rfl

/-- Claim C5 witness: concrete continuation lines exercising all four
cases of the amended claim. -/
theorem cont_continuation_wit :
    cont ⟨2, true⟩ [32, 10] = none ∧
    cont ⟨2, false⟩ [32, 10] = some (⟨2, false⟩, [10]) ∧
    cont ⟨2, true⟩ [32, 32, 98] = some (⟨2, false⟩, [98]) ∧
    cont ⟨2, true⟩ [32, 98] = none := by
  refine ⟨?_, ?_, ?_, ?_⟩
  · exact (cont_continuation ⟨2, true⟩ [32, 10]).1 (by decide) rfl
  · exact ((cont_continuation ⟨2, false⟩ [32, 10]).2.1 (by decide) rfl).trans
      (by decide)
  · exact ((cont_continuation ⟨2, true⟩ [32, 32, 98]).2.2.1 (by decide)
      (by decide)).trans (by decide)
  · exact (cont_continuation ⟨2, true⟩ [32, 98]).2.2.2 (by decide) (by decide)

/-- After a backslash, a non-quote byte is handled exactly as title text
would handle it: the `escape` state resumes `title` without consuming. -/
theorem escapeSt_nonquote (m b : Nat) (rest : List Nat)
    (hm : isQuoteByte m = true) (hb : isQuoteByte b = false) :
    escapeSt m (b :: rest) = titleText m (b :: rest) := by
  have hbm : (b == m) = false := by
    by_cases h : b = m
    · subst h
      rw [hb] at hm
      cases hm
    · exact beq_eq_false_iff_ne.mpr h
  rw [escapeSt.eq_def, titleText.eq_def]
  simp only [hb, hbm, Bool.false_eq_true, if_false]

/-- Claim C6: in title text a backslash followed by the closing marker
byte consumes that byte as literal text and does not close the title,
while a backslash followed by a byte other than `\"`, `'`, `)` leaves that
byte unconsumed, the backslash being literal. -/
theorem title_escape :
    ∀ (m b : Nat) (rest : List Nat), isQuoteByte m = true →
      (titleText m (92 :: m :: rest) = titleText m rest ∧
       (isQuoteByte b = false →
         titleText m (92 :: b :: rest) = titleText m (b :: rest))) := by
  intro m b rest hm
  have hm3 : m = 34 ∨ m = 39 ∨ m = 41 := by
    rw [isQuoteByte] at hm
    simp at hm
    tauto
  have hm92 : ((92 : Nat) == m) = false := by
    rcases hm3 with rfl | rfl | rfl <;> decide
  constructor
  · rw [titleText.eq_def]
    simp only [hm92, Bool.false_eq_true, if_false]
    rw [if_neg (by decide), if_pos (by decide)]
    rw [escapeSt.eq_def]
    simp only [hm, if_pos]
  · intro hb
    rw [titleText.eq_def]
    simp only [hm92, Bool.false_eq_true, if_false]
    rw [if_neg (by decide), if_pos (by decide)]
    exact escapeSt_nonquote m b rest hm hb

/-- Claim C6 witness: in a double-quoted title, an escaped `\"` does not
close the title (at end of input the title is unterminated), and after
`\x` the byte `x` is read as ordinary text. -/
theorem title_escape_wit :
    titleText 34 [92, 34] = none ∧ titleText 34 [92, 120, 34] = some [] := by
  constructor
  · rw [(title_escape 34 120 [] (by decide)).1]
    simp [titleText.eq_def]
  · rw [(title_escape 34 120 [34] (by decide)).2 (by decide)]
    rw [titleText.eq_def]
    simp only []
    rw [if_neg (by decide), if_neg (by decide), if_neg (by decide)]
    rw [titleText.eq_def]
    simp only []
    rw [if_neg (by decide), if_pos (by decide)]

/-- Every state of the title machine needs the closing marker ahead of it
to succeed: a `some` outcome implies the marker byte occurs in the
remaining input. -/
theorem title_close_mem :
    ∀ (n : Nat) (input : List Nat), input.length ≤ n → ∀ (m : Nat) (r : List Nat),
      (atBreak m input = some r → m ∈ input) ∧
      (titleText m input = some r → m ∈ input) ∧
      (escapeSt m input = some r → m ∈ input) := by
  intro n
  induction n with
  | zero =>
    intro input hlen m r
    have h0 : input = [] := List.length_eq_zero.mp (Nat.le_zero.mp hlen)
    subst h0
    refine ⟨fun h => ?_, fun h => ?_, fun h => ?_⟩
    · rw [atBreak.eq_def] at h
      simp at h
    · rw [titleText.eq_def] at h
      simp at h
    · rw [escapeSt.eq_def] at h
      simp at h
  | succ n ih =>
    intro input hlen m r
    cases input with
    | nil =>
      refine ⟨fun h => ?_, fun h => ?_, fun h => ?_⟩
      · rw [atBreak.eq_def] at h
        simp at h
      · rw [titleText.eq_def] at h
        simp at h
      · rw [escapeSt.eq_def] at h
        simp at h
    | cons b rest =>
      have hrest : rest.length ≤ n := by
        simp only [List.length_cons] at hlen
        omega
      have hdwlem : ∀ (b' : Nat) (rest' : List Nat),
          rest.dropWhile isSpaceOrTab = b' :: rest' →
          atBreak m (b' :: rest') = some r → m ∈ b :: rest := by
        intro b' rest' heq hab
        have hle : (b' :: rest').length ≤ n := by
          have hsub := (List.dropWhile_sublist (l := rest) isSpaceOrTab).length_le
          rw [heq] at hsub
          simp only [List.length_cons] at hsub ⊢
          omega
        have hmem : m ∈ b' :: rest' := (ih (b' :: rest') hle m r).1 hab
        have hss := (List.dropWhile_sublist (l := rest) isSpaceOrTab).subset
        rw [heq] at hss
        exact List.mem_cons_of_mem b (hss hmem)
      have hT : titleText m (b :: rest) = some r → m ∈ b :: rest := by
        intro h
        rw [titleText.eq_def] at h
        simp only [] at h
        by_cases h10 : (b == 10) = true
        · rw [if_pos h10] at h
          split at h
          · cases h
          · next b' rest' heq =>
            by_cases hb10 : (b' == 10) = true
            · rw [if_pos hb10] at h
              cases h
            · rw [if_neg hb10] at h
              exact hdwlem b' rest' heq h
        · rw [if_neg h10] at h
          by_cases hbm : (b == m) = true
          · have hbm' : b = m := by simpa using hbm
            rw [← hbm']
            exact List.mem_cons_self b rest
          · rw [if_neg hbm] at h
            by_cases h92 : (b == 92) = true
            · rw [if_pos h92] at h
              exact List.mem_cons_of_mem b ((ih rest hrest m r).2.2 h)
            · rw [if_neg h92] at h
              exact List.mem_cons_of_mem b ((ih rest hrest m r).2.1 h)
      refine ⟨fun h => ?_, hT, fun h => ?_⟩
      · rw [atBreak.eq_def] at h
        simp only [] at h
        by_cases h10 : (b == 10) = true
        · rw [if_pos h10] at h
          split at h
          · cases h
          · next b' rest' heq =>
            by_cases hb10 : (b' == 10) = true
            · rw [if_pos hb10] at h
              cases h
            · rw [if_neg hb10] at h
              exact hdwlem b' rest' heq h
        · rw [if_neg h10] at h
          by_cases hbm : (b == m) = true
          · have hbm' : b = m := by simpa using hbm
            rw [← hbm']
            exact List.mem_cons_self b rest
          · rw [if_neg hbm] at h
            exact hT h
      · rw [escapeSt.eq_def] at h
        simp only [] at h
        by_cases hq : isQuoteByte b = true
        · rw [if_pos hq] at h
          exact List.mem_cons_of_mem b ((ih rest hrest m r).2.1 h)
        · rw [if_neg hq] at h
          by_cases h10 : (b == 10) = true
          · rw [if_pos h10] at h
            split at h
            · cases h
            · next b' rest' heq =>
              by_cases hb10 : (b' == 10) = true
              · rw [if_pos hb10] at h
                cases h
              · rw [if_neg hb10] at h
                exact hdwlem b' rest' heq h
          · rw [if_neg h10] at h
            by_cases h92 : (b == 92) = true
            · rw [if_pos h92] at h
              exact List.mem_cons_of_mem b ((ih rest hrest m r).2.2 h)
            · rw [if_neg h92] at h
              exact List.mem_cons_of_mem b ((ih rest hrest m r).2.1 h)

/-- Claim C7: a title whose input exhausts before the closing marker is
`Nok` — success requires the closing marker to occur after the opener,
and the empty input is refused outright. -/
theorem title_must_close :
    (∀ (b : Nat) (rest r : List Nat), titleStart (b :: rest) = some r →
      (if b == 40 then 41 else b) ∈ rest) ∧
    titleStart [] = none := by
  constructor
  · intro b rest r h
    rw [titleStart] at h
    by_cases hb : (b == 34 || b == 39 || b == 40) = true
    · rw [if_pos hb] at h
      cases rest with
      | nil =>
        rw [titleBegin] at h
        rw [atBreak.eq_def] at h
        simp at h
      | cons c cs =>
        rw [titleBegin] at h
        by_cases hc : (c == (if b == 40 then 41 else b)) = true
        · have hc' : c = (if b == 40 then 41 else b) := by simpa using hc
          rw [← hc']
          exact List.mem_cons_self c cs
        · rw [if_neg hc] at h
          exact (title_close_mem (c :: cs).length (c :: cs) (Nat.le_refl _)
            (if b == 40 then 41 else b) r).1 h
    · rw [if_neg hb] at h
      cases h
  · rfl

/-- Claim C7 witness: the closed title `\"\"` succeeds and its closing
marker indeed lies in the input after the opener. -/
theorem title_must_close_wit : (34 : Nat) ∈ ([34] : List Nat) := by
  have h : titleStart [34, 34] = some [] := by
    rw [titleStart, if_pos (by decide), titleBegin, if_pos (by decide)]
  simpa using title_must_close.1 34 [34] [] h

theorem takeWhile_get {α : Type} (p : α → Bool) :
    ∀ (l : List α) (j : Nat), j < (l.takeWhile p).length →
      ∃ a, l.get? j = some a ∧ p a = true := by
  intro l
  induction l with
  | nil => intro j hj; simp at hj
  | cons b rest ih =>
    intro j hj
    by_cases hp : p b = true
    · rw [List.takeWhile_cons_of_pos hp] at hj
      cases j with
      | zero => exact ⟨b, rfl, hp⟩
      | succ j' =>
        simp only [List.length_cons] at hj
        obtain ⟨a, ha, hpa⟩ := ih j' (by omega)
        exact ⟨a, by simpa using ha, hpa⟩
    · rw [List.takeWhile_cons_of_neg (by simpa using hp)] at hj
      simp at hj

theorem takeWhile_len_le {α : Type} (p : α → Bool) :
    ∀ (l : List α) (n : Nat) (a : α), l.get? n = some a → p a = false →
      (l.takeWhile p).length ≤ n := by
  intro l
  induction l with
  | nil => intro n a ha; cases ha
  | cons b rest ih =>
    intro n a ha hpa
    by_cases hp : p b = true
    · rw [List.takeWhile_cons_of_pos hp]
      cases n with
      | zero =>
        cases ha
        rw [hpa] at hp
        cases hp
      | succ n' =>
        simp only [List.length_cons]
        have := ih n' a (by simpa using ha) hpa
        omega
    · rw [List.takeWhile_cons_of_neg (by simpa using hp)]
      simp

theorem takeWhile_len_ge {α : Type} (p : α → Bool) :
    ∀ (l : List α) (n : Nat), n ≤ l.length →
      (∀ j, j < n → ∀ a, l.get? j = some a → p a = true) →
      n ≤ (l.takeWhile p).length := by
  intro l
  induction l with
  | nil => intro n hn _; simpa using hn
  | cons b rest ih =>
    intro n hn hall
    cases n with
    | zero => simp
    | succ n' =>
      have hp : p b = true := hall 0 (by omega) b rfl
      rw [List.takeWhile_cons_of_pos hp]
      simp only [List.length_cons] at hn ⊢
      have := ih n' (by omega) (fun j hj a ha => hall (j + 1) (by omega) a (by simpa using ha))
      omega

/-- `skip::opt` over the whitespace class lands exactly on `i` iff `i` is
reachable and every event strictly between the start position and `i` is
of the whitespace class (given that the event at `i` is not). -/
theorem skipOptWs_eq_iff (ev : List Ev) (i p : Nat) (e : Ev)
    (he : ev.get? i = some e) (hnw : wsClassB e.token = false) :
    skipOptWs ev p = i ↔
      (p ≤ i ∧ ∀ j, p ≤ j → j < i → ∀ e', ev.get? j = some e' →
        wsClassB e'.token = true) := by
  have hilen : i < ev.length := by
    obtain ⟨h, -⟩ := List.get?_eq_some.mp he
    exact h
  constructor
  · intro hsk
    rw [skipOptWs] at hsk
    refine ⟨by omega, ?_⟩
    intro j hpj hji e' hj
    have hjp : j - p < ((ev.drop p).takeWhile (fun e => wsClassB e.token)).length := by
      omega
    obtain ⟨a, ha, hpa⟩ := takeWhile_get _ (ev.drop p) (j - p) hjp
    rw [List.get?_drop, show p + (j - p) = j by omega, hj] at ha
    cases ha
    exact hpa
  · rintro ⟨hpi, hall⟩
    rw [skipOptWs]
    have hup : ((ev.drop p).takeWhile (fun e => wsClassB e.token)).length ≤ i - p := by
      refine takeWhile_len_le _ (ev.drop p) (i - p) e ?_ hnw
      rw [List.get?_drop, show p + (i - p) = i by omega]
      exact he
    have hlo : i - p ≤ ((ev.drop p).takeWhile (fun e => wsClassB e.token)).length := by
      refine takeWhile_len_ge _ (ev.drop p) (i - p) ?_ ?_
      · rw [List.length_drop]
        omega
      · intro j hj a ha
        rw [List.get?_drop] at ha
        exact hall (p + j) (by omega) (by omega) a ha
    omega

/-- The `lists_wip` search succeeds exactly when some candidate group has
the same kind, the same balance, and only whitespace-class events strictly
between its recorded end and the current start. -/
theorem findExtend_isSome_iff (ev : List Ev) (k : Kind) (bal : Int) (i : Nat)
    (e : Ev) (he : ev.get? i = some e) (hnw : wsClassB e.token = false) :
    ∀ wip : List Grp,
      ((findExtend ev k bal i wip).isSome = true ↔
        ∃ g ∈ wip, g.kind = k ∧ g.bal = bal ∧ g.fin < i ∧
          ∀ j, g.fin < j → j < i → ∀ e', ev.get? j = some e' →
            wsClassB e'.token = true) := by
  intro wip
  induction wip with
  | nil => simp [findExtend]
  | cons g rest ih =>
    rw [findExtend]
    by_cases hc : g.kind = k ∧ g.bal = bal ∧ skipOptWs ev (g.fin + 1) = i
    · rw [if_pos hc]
      simp only [Option.isSome_some, true_iff]
      obtain ⟨h1, h2, h3⟩ := hc
      obtain ⟨hle, hall⟩ := (skipOptWs_eq_iff ev i (g.fin + 1) e he hnw).mp h3
      exact ⟨g, by simp, h1, h2, by omega,
        fun j hj1 hj2 e' hj => hall j (by omega) hj2 e' hj⟩
    · rw [if_neg hc]
      have hmap : ((findExtend ev k bal i rest).map (· + 1)).isSome =
          (findExtend ev k bal i rest).isSome := by
        cases findExtend ev k bal i rest <;> simp
      rw [hmap, ih]
      constructor
      · rintro ⟨g', hmem, h1, h2, h3, h4⟩
        exact ⟨g', List.mem_cons_of_mem g hmem, h1, h2, h3, h4⟩
      · rintro ⟨g', hmem, h1, h2, h3, h4⟩
        rcases List.mem_cons.mp hmem with rfl | hmem'
        · exact absurd ⟨h1, h2, (skipOptWs_eq_iff ev i (g'.fin + 1) e he hnw).mpr
            ⟨by omega, fun j hpj hji e' hj => h4 j (by omega) hji e' hj⟩⟩ hc
        · exact ⟨g', hmem', h1, h2, h3, h4⟩

/-- Claim C2: during the merge pass, the current `ListItem` extends an
existing candidate group iff some group in `lists_wip` has the same marker
kind, the same balance, and only `SpaceOrTab`, `LineEnding`,
`BlankLineEnding` or `BlockQuotePrefix` events strictly between its
recorded end and the item's start; in particular, on concrete logs, `*`
items merge with `*` items, `*` does not group with `-`, and a `Data`
event between two `*` items splits them into two groups. -/
theorem resolver_grouping :
    (∀ (ev : List Ev) (k : Kind) (bal : Int) (i : Nat) (e : Ev) (wip : List Grp),
      ev.get? i = some e → e.token = TokenT.ListItem →
      ((findExtend ev k bal i wip).isSome = true ↔
        ∃ g ∈ wip, g.kind = k ∧ g.bal = bal ∧ g.fin < i ∧
          ∀ j, g.fin < j → j < i → ∀ e', ev.get? j = some e' →
            wsClassB e'.token = true)) ∧
    resolveGroups evTwoItems bytesStarStar = some [⟨Kind.Asterisk, 0, 0, 9⟩] ∧
    resolveGroups evTwoItems bytesStarDash =
      some [⟨Kind.Asterisk, 0, 0, 3⟩, ⟨Kind.Dash, 0, 6, 9⟩] ∧
    resolveGroups evSplitItems bytesStarStar =
      some [⟨Kind.Asterisk, 0, 0, 3⟩, ⟨Kind.Asterisk, 0, 6, 9⟩] := by
  refine ⟨?_, by decide, by decide, by decide⟩
  intro ev k bal i e wip he htok
  exact findExtend_isSome_iff ev k bal i e he (by rw [htok]; rfl) wip

/-- Claim C2 witness: the search extends the asterisk group across the
line ending of the two-item log. -/
theorem resolver_grouping_wit :
    (findExtend evTwoItems Kind.Asterisk 0 6
      [⟨Kind.Asterisk, 0, 0, 3⟩]).isSome = true := by
  refine (resolver_grouping.1 evTwoItems Kind.Asterisk 0 6
    ⟨EType.enter, TokenT.ListItem, 2⟩ [⟨Kind.Asterisk, 0, 0, 3⟩] rfl rfl).mpr
    ⟨⟨Kind.Asterisk, 0, 0, 3⟩, by simp, rfl, rfl, by decide, ?_⟩
  intro j h1 h2 e' hj
  have h1' : (3 : Nat) < j := h1
  have hj45 : j = 4 ∨ j = 5 := by omega
  rcases hj45 with rfl | rfl
  · rw [show evTwoItems.get? 4 = some ⟨EType.enter, TokenT.LineEnding, 1⟩
      from rfl] at hj
    cases hj
    rfl
  · rw [show evTwoItems.get? 5 = some ⟨EType.exit, TokenT.LineEnding, 2⟩
      from rfl] at hj
    cases hj
    rfl

theorem fromByte_mem (b : Nat) (k : Kind) (h : fromByte b = some k) :
    b = 46 ∨ b = 41 ∨ b = 42 ∨ b = 43 ∨ b = 45 := by
  rw [fromByte] at h
  split_ifs at h with h1 h2 h3 h4 h5
  · exact Or.inl h1
  · exact Or.inr (Or.inl h2)
  · exact Or.inr (Or.inr (Or.inl h3))
  · exact Or.inr (Or.inr (Or.inr (Or.inl h4)))
  · exact Or.inr (Or.inr (Or.inr (Or.inr h5)))

theorem findTokenIn_spec (t : TokenT) :
    ∀ (l : List Ev) (r : Nat), findTokenIn t l = some r →
      ∃ a, l.get? r = some a ∧ a.token = t := by
  intro l
  induction l with
  | nil => intro r h; rw [findTokenIn] at h; cases h
  | cons e rest ih =>
    intro r h
    rw [findTokenIn] at h
    by_cases hc : (e.token == t) = true
    · rw [if_pos hc] at h
      cases h
      exact ⟨e, rfl, by simpa using hc⟩
    · rw [if_neg hc] at h
      cases hf : findTokenIn t rest with
      | none => rw [hf] at h; cases h
      | some r' =>
        rw [hf] at h
        simp only [Option.map_some'] at h
        cases h
        obtain ⟨a, ha, hat⟩ := ih r' hf
        exact ⟨a, by simpa using ha, hat⟩

/-- A successful marker-kind read names a marker event strictly after the
item's enter whose point carries one of the five marker bytes. -/
theorem readKind_spec (ev : List Ev) (bytes : List Nat) (i : Nat) (k : Kind)
    (e : Ev) (hi : ev.get? i = some e) (hne : e.token ≠ TokenT.ListItemMarker)
    (h : readKind ev bytes i = some k) :
    ∃ j e' b, i < j ∧ ev.get? j = some e' ∧
      e'.token = TokenT.ListItemMarker ∧ bytes.get? e'.point = some b ∧
      (b = 46 ∨ b = 41 ∨ b = 42 ∨ b = 43 ∨ b = 45) := by
  rw [readKind] at h
  cases hf : findTokenIn TokenT.ListItemMarker (ev.drop i) with
  | none =>
    rw [hf] at h
    simp at h
  | some rel =>
    rw [hf] at h
    simp only [Option.map_some', Option.some_bind] at h
    obtain ⟨a, ha, hat⟩ := findTokenIn_spec TokenT.ListItemMarker (ev.drop i) rel hf
    rw [List.get?_drop] at ha
    have hrel : 0 < rel := by
      by_contra hz
      have hz0 : rel = 0 := by omega
      subst hz0
      rw [Nat.add_zero, hi] at ha
      cases ha
      exact hne hat
    rw [ha, Option.some_bind] at h
    cases hb : bytes.get? a.point with
    | none =>
      rw [hb] at h
      simp at h
    | some b =>
      rw [hb, Option.some_bind] at h
      exact ⟨i + rel, a, b, by omega, ha, hat, hb, fromByte_mem b k h⟩

/-- If the merge pass completes without panicking, the marker-kind read
succeeded at every `Enter(ListItem)` it scanned. -/
theorem scanFrom_readKind :
    ∀ (rest ev : List Ev) (bytes : List Nat) (i : Nat) (bal : Int)
      (wip done gs : List Grp),
      scanFrom ev bytes rest i bal wip done = some gs →
      ∀ (o : Nat) (e : Ev), rest.get? o = some e → e.etype = EType.enter →
        e.token = TokenT.ListItem → (readKind ev bytes (i + o)).isSome = true := by
  intro rest
  induction rest with
  | nil =>
    intro ev bytes i bal wip done gs hs o e ho he ht
    simp at ho
  | cons e0 tl ih =>
    intro ev bytes i bal wip done gs hs o e ho he ht
    rw [scanFrom] at hs
    by_cases h0 : (e0.token == TokenT.ListItem) = true
    · rw [if_pos h0] at hs
      cases hety : e0.etype with
      | enter =>
        simp only [hety] at hs
        cases hrk : readKind ev bytes i with
        | none => simp [hrk] at hs
        | some k =>
          cases o with
          | zero =>
            rw [Nat.add_zero, hrk]
            rfl
          | succ o' =>
            simp only [hrk] at hs
            have hnext : ∃ wip' done',
                scanFrom ev bytes tl (i + 1) (bal + 1) wip' done' = some gs := by
              cases hfe : findExtend ev k bal i wip with
              | some idx =>
                simp only [hfe] at hs
                exact ⟨_, _, hs⟩
              | none =>
                simp only [hfe] at hs
                exact ⟨_, _, hs⟩
            obtain ⟨wip', done', hs'⟩ := hnext
            have hrec := ih ev bytes (i + 1) (bal + 1) wip' done' gs hs' o' e
              (by simpa using ho) he ht
            rw [show i + (o' + 1) = (i + 1) + o' by omega]
            exact hrec
      | exit =>
        simp only [hety] at hs
        cases o with
        | zero =>
          have he0 : e0 = e := by simpa using ho
          rw [← he0, hety] at he
          cases he
        | succ o' =>
          have hrec := ih ev bytes (i + 1) (bal - 1) wip done gs hs o' e
            (by simpa using ho) he ht
          rw [show i + (o' + 1) = (i + 1) + o' by omega]
          exact hrec
    · rw [if_neg h0] at hs
      cases o with
      | zero =>
        have he0 : e0 = e := by simpa using ho
        exact absurd (by simp [he0, ht]) h0
      | succ o' =>
        have hrec := ih ev bytes (i + 1) bal wip done gs hs o' e
          (by simpa using ho) he ht
        rw [show i + (o' + 1) = (i + 1) + o' by omega]
        exact hrec

/-- Claim C8: if `resolve_list_item` completes (does not panic), then
every `Enter(ListItem)` of the log has a later `ListItemMarker` event
whose point designates an input byte among `.`, `)`, `*`, `+`, `-`; a log
violating this makes the resolver reach `Kind::from_byte`'s unreachable
branch or the `head()`/`unwrap` failure (the `none` outcome, by
contraposition). -/
theorem resolver_totality_precondition :
    ∀ (ev : List Ev) (bytes : List Nat) (gs : List Grp),
      resolveGroups ev bytes = some gs →
      ∀ (i : Nat) (e : Ev), ev.get? i = some e → e.etype = EType.enter →
        e.token = TokenT.ListItem →
        ∃ j e' b, i < j ∧ ev.get? j = some e' ∧
          e'.token = TokenT.ListItemMarker ∧ bytes.get? e'.point = some b ∧
          (b = 46 ∨ b = 41 ∨ b = 42 ∨ b = 43 ∨ b = 45) := by
  intro ev bytes gs hs i e hi he ht
  rw [resolveGroups] at hs
  have hk := scanFrom_readKind ev ev bytes 0 0 [] [] gs hs i e hi he ht
  rw [Nat.zero_add] at hk
  obtain ⟨k, hk'⟩ := Option.isSome_iff_exists.mp hk
  exact readKind_spec ev bytes i k e hi
    (by rw [ht]; intro hcon; cases hcon) hk'

/-- Claim C8 witness: the single-item log resolves, and its enter indeed
has a valid marker after it. -/
theorem resolver_totality_precondition_wit :
    ∃ j e' b, 0 < j ∧ evOneStar.get? j = some e' ∧
      e'.token = TokenT.ListItemMarker ∧ bytesOneStar.get? e'.point = some b ∧
      (b = 46 ∨ b = 41 ∨ b = 42 ∨ b = 43 ∨ b = 45) :=
  resolver_totality_precondition evOneStar bytesOneStar
    [⟨Kind.Asterisk, 0, 0, 3⟩] (by decide) 0
    ⟨EType.enter, TokenT.ListItem, 0⟩ rfl rfl rfl

theorem applyGo_nil : ∀ (i : Nat) (l : List Ev), applyGo [] i l = l := by
  intro i l
  induction l generalizing i with
  | nil => simp [applyGo, editsAt]
  | cons e rest ih => simp [applyGo, editsAt, ih]

/-- Claim C3 counterexample: on the single-item log, running the resolver
twice (applying its edits after each run) does not reproduce the first
run's output — the second run wraps the group in a second, duplicate
`ListUnordered` pair. -/
theorem resolve_twice_differs_cex :
    (resolveApply evOneStar bytesOneStar).bind
        (fun l => resolveApply l bytesOneStar) ≠
      resolveApply evOneStar bytesOneStar ∧
    (resolveApply evOneStar bytesOneStar).isSome = true := by decide

/-- Applying an event map only inserts: the original log is a sublist of
the result. -/
theorem applyGo_sublist :
    ∀ (edits : List (Nat × List Ev)) (i : Nat) (l : List Ev),
      l.Sublist (applyGo edits i l) := by
  intro edits i l
  induction l generalizing i with
  | nil =>
    rw [applyGo]
    exact List.nil_sublist _
  | cons e rest ih =>
    rw [applyGo]
    exact (List.Sublist.cons₂ e (ih (i + 1))).trans
      (List.sublist_append_right _ _)

/-- Applying an event map at least adds the insertions recorded for any
single in-range position. -/
theorem applyGo_length_ge :
    ∀ (edits : List (Nat × List Ev)) (l : List Ev) (i j : Nat),
      i ≤ j → j ≤ i + l.length →
      l.length + (editsAt edits j).length ≤ (applyGo edits i l).length := by
  intro edits l
  induction l with
  | nil =>
    intro i j h1 h2
    have hji : j = i := by simp at h2; omega
    subst hji
    rw [applyGo]
    simp
  | cons e rest ih =>
    intro i j h1 h2
    rw [applyGo, List.length_append, List.length_cons]
    by_cases hj : j = i
    · subst hj
      have hge := (applyGo_sublist edits (j + 1) rest).length_le
      simp only [List.length_cons]
      omega
    · have hrec := ih (i + 1) j (by omega)
        (by simp only [List.length_cons] at h2; omega)
      simp only [List.length_cons]
      omega

theorem editsAt_append (a b : List (Nat × List Ev)) (j : Nat) :
    editsAt (a ++ b) j = editsAt a j ++ editsAt b j := by
  simp [editsAt, List.filter_append]

/-- The inject phase records at least one insertion at the start index of
every group it wraps. -/
theorem editsAt_group_edits (ev : List Ev) :
    ∀ (gs : List Grp) (g : Grp), g ∈ gs →
      1 ≤ (editsAt (gs.flatMap (fun g =>
        [(g.start, [{ ev.getD g.start default with token := groupToken g.kind }]),
         (g.fin + 1, [{ ev.getD g.fin default with token := groupToken g.kind }])]))
        g.start).length := by
  intro gs
  induction gs with
  | nil =>
    intro g hg
    simp at hg
  | cons g0 rest ih =>
    intro g hg
    rw [List.flatMap_cons, editsAt_append, List.length_append]
    rcases List.mem_cons.mp hg with rfl | hg'
    · have h1 : 1 ≤ (editsAt
          [(g.start, [{ ev.getD g.start default with token := groupToken g.kind }]),
           (g.fin + 1, [{ ev.getD g.fin default with token := groupToken g.kind }])]
          g.start).length := by
        rw [editsAt]
        simp only [List.filter_cons, beq_self_eq_true, if_true]
        by_cases hx : ((g.fin + 1 : Nat) == g.start) = true
        · simp [hx]
        · simp [hx]
      omega
    · have h2 := ih g hg'
      omega

/-- A scan over events containing no `Enter(ListItem)` leaves the stacks
untouched and flushes them. -/
theorem scanFrom_no_enter :
    ∀ (rest ev : List Ev) (bytes : List Nat) (i : Nat) (bal : Int)
      (wip done : List Grp),
      (∀ (o : Nat) (e : Ev), rest.get? o = some e → e.etype = EType.enter →
        e.token = TokenT.ListItem → False) →
      scanFrom ev bytes rest i bal wip done = some (done ++ wip.reverse) := by
  intro rest
  induction rest with
  | nil =>
    intro ev bytes i bal wip done _
    rw [scanFrom]
  | cons e0 tl ih =>
    intro ev bytes i bal wip done hno
    rw [scanFrom]
    by_cases h0 : (e0.token == TokenT.ListItem) = true
    · rw [if_pos h0]
      cases hety : e0.etype with
      | enter => exact (hno 0 e0 rfl hety (by simpa using h0)).elim
      | exit =>
        simp only [hety]
        exact ih ev bytes (i + 1) (bal - 1) wip done
          (fun o e ho he ht => hno (o + 1) e (by simpa using ho) he ht)
    · rw [if_neg h0]
      exact ih ev bytes (i + 1) bal wip done
        (fun o e ho he ht => hno (o + 1) e (by simpa using ho) he ht)

/-- Once a candidate group is on either stack, the scan's final group list
is nonempty. -/
theorem scanFrom_ne_nil :
    ∀ (rest ev : List Ev) (bytes : List Nat) (i : Nat) (bal : Int)
      (wip done gs : List Grp),
      scanFrom ev bytes rest i bal wip done = some gs →
      wip ≠ [] ∨ done ≠ [] → gs ≠ [] := by
  intro rest
  induction rest with
  | nil =>
    intro ev bytes i bal wip done gs hs hne
    rw [scanFrom] at hs
    cases hs
    intro hcon
    rw [List.append_eq_nil] at hcon
    rcases hne with h | h
    · exact h (List.reverse_eq_nil_iff.mp hcon.2)
    · exact h hcon.1
  | cons e0 tl ih =>
    intro ev bytes i bal wip done gs hs hne
    rw [scanFrom] at hs
    by_cases h0 : (e0.token == TokenT.ListItem) = true
    · rw [if_pos h0] at hs
      cases hety : e0.etype with
      | enter =>
        simp only [hety] at hs
        cases hrk : readKind ev bytes i with
        | none => simp [hrk] at hs
        | some k =>
          simp only [hrk] at hs
          cases hfe : findExtend ev k bal i wip with
          | some idx =>
            simp only [hfe] at hs
            exact ih ev bytes (i + 1) (bal + 1) _ _ gs hs (Or.inl (by simp))
          | none =>
            simp only [hfe] at hs
            exact ih ev bytes (i + 1) (bal + 1) _ _ gs hs (Or.inl (by simp))
      | exit =>
        simp only [hety] at hs
        exact ih ev bytes (i + 1) (bal - 1) wip done gs hs hne
    · rw [if_neg h0] at hs
      exact ih ev bytes (i + 1) bal wip done gs hs hne

/-- A completed scan over events containing an `Enter(ListItem)` produces
at least one group. -/
theorem scanFrom_enter_ne_nil :
    ∀ (rest ev : List Ev) (bytes : List Nat) (i : Nat) (bal : Int)
      (wip done gs : List Grp) (o : Nat) (e : Ev),
      scanFrom ev bytes rest i bal wip done = some gs →
      rest.get? o = some e → e.etype = EType.enter →
      e.token = TokenT.ListItem → gs ≠ [] := by
  intro rest
  induction rest with
  | nil =>
    intro ev bytes i bal wip done gs o e _ ho
    simp at ho
  | cons e0 tl ih =>
    intro ev bytes i bal wip done gs o e hs ho he ht
    rw [scanFrom] at hs
    by_cases h0 : (e0.token == TokenT.ListItem) = true
    · rw [if_pos h0] at hs
      cases hety : e0.etype with
      | enter =>
        simp only [hety] at hs
        cases hrk : readKind ev bytes i with
        | none => simp [hrk] at hs
        | some k =>
          simp only [hrk] at hs
          cases hfe : findExtend ev k bal i wip with
          | some idx =>
            simp only [hfe] at hs
            exact scanFrom_ne_nil tl ev bytes (i + 1) (bal + 1) _ _ gs hs
              (Or.inl (by simp))
          | none =>
            simp only [hfe] at hs
            exact scanFrom_ne_nil tl ev bytes (i + 1) (bal + 1) _ _ gs hs
              (Or.inl (by simp))
      | exit =>
        simp only [hety] at hs
        cases o with
        | zero =>
          have he0 : e0 = e := by simpa using ho
          rw [he0, he] at hety
          cases hety
        | succ o' =>
          exact ih ev bytes (i + 1) (bal - 1) wip done gs o' e hs
            (by simpa using ho) he ht
    · rw [if_neg h0] at hs
      cases o with
      | zero =>
        have he0 : e0 = e := by simpa using ho
        exact absurd (by simp [he0, ht]) h0
      | succ o' =>
        exact ih ev bytes (i + 1) bal wip done gs o' e hs
          (by simpa using ho) he ht

theorem getD_start_le (wip : List Grp) (idx : Nat) (N : Nat)
    (h : ∀ g ∈ wip, g.start ≤ N) : (wip.getD idx default).start ≤ N := by
  by_cases hidx : idx < wip.length
  · refine h _ ?_
    rw [List.getD_eq_getElem wip default hidx]
    exact List.getElem_mem hidx
  · rw [List.getD_eq_default wip default (by omega)]
    exact Nat.zero_le N

/-- Every group a scan emits starts at an index within the scanned range
(given that the incoming stacks do). -/
theorem scanFrom_start_le :
    ∀ (rest ev : List Ev) (bytes : List Nat) (i : Nat) (bal : Int)
      (wip done gs : List Grp),
      scanFrom ev bytes rest i bal wip done = some gs →
      (∀ g ∈ wip, g.start ≤ i + rest.length) →
      (∀ g ∈ done, g.start ≤ i + rest.length) →
      ∀ g ∈ gs, g.start ≤ i + rest.length := by
  intro rest
  induction rest with
  | nil =>
    intro ev bytes i bal wip done gs hs hw hd g hg
    rw [scanFrom] at hs
    cases hs
    rcases List.mem_append.mp hg with h | h
    · exact hd g h
    · exact hw g (List.mem_reverse.mp h)
  | cons e0 tl ih =>
    intro ev bytes i bal wip done gs hs hw hd g hg
    have hw' : ∀ g ∈ wip, g.start ≤ (i + 1) + tl.length := by
      intro g hgm
      have := hw g hgm
      simp only [List.length_cons] at this
      omega
    have hd' : ∀ g ∈ done, g.start ≤ (i + 1) + tl.length := by
      intro g hgm
      have := hd g hgm
      simp only [List.length_cons] at this
      omega
    have hback : ∀ g ∈ gs, g.start ≤ (i + 1) + tl.length →
        g.start ≤ i + (e0 :: tl).length := by
      intro g _ hb
      simp only [List.length_cons]
      omega
    rw [scanFrom] at hs
    by_cases h0 : (e0.token == TokenT.ListItem) = true
    · rw [if_pos h0] at hs
      cases hety : e0.etype with
      | enter =>
        simp only [hety] at hs
        cases hrk : readKind ev bytes i with
        | none => simp [hrk] at hs
        | some k =>
          simp only [hrk] at hs
          cases hfe : findExtend ev k bal i wip with
          | some idx =>
            simp only [hfe] at hs
            refine hback g hg (ih ev bytes (i + 1) (bal + 1) _ _ gs hs ?_ ?_ g hg)
            · intro g' hg'
              rcases List.mem_cons.mp hg' with rfl | hg''
              · exact getD_start_le wip idx _ hw'
              · exact hw' g' ((List.drop_sublist _ _).subset hg'')
            · intro g' hg'
              rcases List.mem_append.mp hg' with h | h
              · exact hd' g' h
              · exact hw' g'
                  ((List.take_sublist _ _).subset (List.mem_reverse.mp h))
          | none =>
            simp only [hfe] at hs
            refine hback g hg (ih ev bytes (i + 1) (bal + 1) _ _ gs hs ?_ ?_ g hg)
            · intro g' hg'
              rcases List.mem_cons.mp hg' with rfl | hg''
              · show i ≤ (i + 1) + tl.length
                omega
              · exact hw' g' ((List.drop_sublist _ _).subset hg'')
            · intro g' hg'
              rcases List.mem_append.mp hg' with h | h
              · exact hd' g' h
              · exact hw' g'
                  ((List.take_sublist _ _).subset (List.mem_reverse.mp h))
      | exit =>
        simp only [hety] at hs
        exact hback g hg (ih ev bytes (i + 1) (bal - 1) wip done gs hs hw' hd' g hg)
    · rw [if_neg h0] at hs
      exact hback g hg (ih ev bytes (i + 1) bal wip done gs hs hw' hd' g hg)

/-- Claim C3 (amended): running `resolve_list_item` twice (applying its
event-map edits after each run) produces the same final log after the
second run as after the first exactly when the first run makes no
event-map edits (finds no groups): then both runs return the log
unchanged; whenever the first run does make edits, the final log after
the second run differs from the final log after the first. -/
theorem resolve_idempotent_iff :
    ∀ (ev : List Ev) (bytes : List Nat) (eds : List (Nat × List Ev)),
      resolveEdits ev bytes = some eds →
      (eds = [] →
        resolveApply ev bytes = some ev ∧
        (resolveApply ev bytes).bind (fun l => resolveApply l bytes) = some ev) ∧
      (eds ≠ [] →
        (resolveApply ev bytes).bind (fun l => resolveApply l bytes) ≠
          resolveApply ev bytes) := by
  intro ev bytes eds hed
  constructor
  · rintro rfl
    have h1 : resolveApply ev bytes = some ev := by
      rw [resolveApply, hed]
      simp [applyGo_nil]
    exact ⟨h1, by rw [h1]; simpa using h1⟩
  · intro hne
    have h1 : resolveApply ev bytes = some (applyGo eds 0 ev) := by
      rw [resolveApply, hed]
      rfl
    rw [h1]
    simp only [Option.some_bind]
    have hgs1 : ∃ gs1, resolveGroups ev bytes = some gs1 ∧ gs1 ≠ [] := by
      rw [resolveEdits] at hed
      cases hg : resolveGroups ev bytes with
      | none =>
        rw [hg] at hed
        simp at hed
      | some gs1 =>
        rw [hg] at hed
        simp only [Option.map_some'] at hed
        injection hed with hed
        refine ⟨gs1, rfl, ?_⟩
        rintro rfl
        exact hne (by rw [← hed]; rfl)
    obtain ⟨gs1, hg1, hg1ne⟩ := hgs1
    have henter : ∃ o e, ev.get? o = some e ∧ e.etype = EType.enter ∧
        e.token = TokenT.ListItem := by
      by_contra hno
      have hscan := scanFrom_no_enter ev ev bytes 0 0 [] []
        (fun o e ho he ht => hno ⟨o, e, ho, he, ht⟩)
      rw [resolveGroups, hscan] at hg1
      injection hg1 with hg1
      exact hg1ne (by rw [← hg1]; rfl)
    obtain ⟨o, e, ho, he, ht⟩ := henter
    have hmem1 : e ∈ applyGo eds 0 ev :=
      (applyGo_sublist eds 0 ev).subset (List.get?_mem ho)
    obtain ⟨o1, ho1⟩ := List.get?_of_mem hmem1
    cases h2 : resolveApply (applyGo eds 0 ev) bytes with
    | none => simp
    | some L2 =>
      intro hcon
      injection hcon with hcon
      rw [resolveApply] at h2
      cases he2 : resolveEdits (applyGo eds 0 ev) bytes with
      | none =>
        rw [he2] at h2
        cases h2
      | some eds2 =>
        rw [he2] at h2
        simp only [Option.map_some'] at h2
        injection h2 with h2
        rw [resolveEdits] at he2
        cases hg2 : resolveGroups (applyGo eds 0 ev) bytes with
        | none =>
          rw [hg2] at he2
          cases he2
        | some gs2 =>
          rw [hg2] at he2
          simp only [Option.map_some'] at he2
          injection he2 with he2
          have hgs2ne : gs2 ≠ [] := by
            rw [resolveGroups] at hg2
            exact scanFrom_enter_ne_nil (applyGo eds 0 ev) (applyGo eds 0 ev)
              bytes 0 0 [] [] gs2 o1 e hg2 ho1 he ht
          cases gs2 with
          | nil => exact hgs2ne rfl
          | cons g0 rest2 =>
            have hstart : g0.start ≤ (applyGo eds 0 ev).length := by
              have hb := scanFrom_start_le (applyGo eds 0 ev) (applyGo eds 0 ev)
                bytes 0 0 [] [] (g0 :: rest2)
                (by rw [resolveGroups] at hg2; exact hg2)
                (by simp) (by simp) g0 (by simp)
              simpa using hb
            have hea : 1 ≤ (editsAt eds2 g0.start).length := by
              rw [← he2]
              exact editsAt_group_edits (applyGo eds 0 ev) (g0 :: rest2) g0
                (by simp)
            have hlen := applyGo_length_ge eds2 (applyGo eds 0 ev) 0 g0.start
              (Nat.zero_le _) (by simpa using hstart)
            rw [h2, hcon] at hlen
            omega

/-- Claim C3 witness: with no list items both runs leave the log
unchanged; on the single-item log the first run makes edits and the two
runs disagree. -/
theorem resolve_idempotent_iff_wit :
    (resolveApply evNoList [] = some evNoList ∧
      (resolveApply evNoList []).bind (fun l => resolveApply l []) =
        some evNoList) ∧
    (resolveApply evOneStar bytesOneStar).bind
        (fun l => resolveApply l bytesOneStar) ≠
      resolveApply evOneStar bytesOneStar := by
  constructor
  · exact (resolve_idempotent_iff evNoList [] [] (by decide)).1 rfl
  · exact (resolve_idempotent_iff evOneStar bytesOneStar
      [(0, [⟨EType.enter, TokenT.ListUnordered, 0⟩]),
       (4, [⟨EType.exit, TokenT.ListUnordered, 1⟩])] (by decide)).2 (by decide)

theorem insideEv_events :
    ∀ (intr : Bool) (l : List Nat) (s : Nat) (acc : List (EType × TokenT)),
      (∀ ev, insideEv intr l s acc = StartOutcome.nok ev → ev = acc) ∧
      (∀ ev rest, insideEv intr l s acc = StartOutcome.proceeded ev rest →
        ev = acc ++ [(EType.exit, TokenT.ListItemValue),
          (EType.enter, TokenT.ListItemMarker),
          (EType.exit, TokenT.ListItemMarker)]) := by
  intro intr l
  induction l with
  | nil =>
    intro s acc
    constructor
    · intro ev h
      rw [insideEv] at h
      cases h
      rfl
    · intro ev rest h
      rw [insideEv] at h
      cases h
  | cons b tl ih =>
    intro s acc
    constructor
    · intro ev h
      rw [insideEv] at h
      split_ifs at h with h1 h2
      all_goals first
        | exact (ih (s + 1) acc).1 ev h
        | (cases h; rfl)
        | cases h
    · intro ev rest h
      rw [insideEv] at h
      split_ifs at h with h1 h2
      all_goals first
        | exact (ih (s + 1) acc).2 ev rest h
        | (cases h; rfl)
        | cases h

/-- The optional-indent events never contain a `ListItem` event and they
are a prefix-free tail: either empty or one `SpaceOrTab` pair. -/
theorem indentEvents_cases (ci : Bool) (input : List Nat) :
    indentEvents ci input = [] ∨
    indentEvents ci input =
      [(EType.enter, TokenT.SpaceOrTab), (EType.exit, TokenT.SpaceOrTab)] := by
  rw [indentEvents]
  by_cases h : (leadCount ci input == 0) = true
  · rw [if_pos h]
    exact Or.inl rfl
  · rw [if_neg h]
    exact Or.inr rfl

/-- Claim C10: with the list construct disabled, `start` is `Nok` with no
events; with it enabled, `Enter(ListItem)` is emitted before the opener is
decided, so every `Nok` outcome still carries the unmatched
`Enter(ListItem)` at the head of its events (and no matching exit), and
every successful path's events also start with it. -/
theorem list_start_events :
    ∀ (ci : Bool) (isTB : List Nat → Bool) (intr : Bool) (input : List Nat),
      listStart false ci isTB intr input = StartOutcome.nok [] ∧
      (∀ ev, listStart true ci isTB intr input = StartOutcome.nok ev →
        ev.head? = some (EType.enter, TokenT.ListItem) ∧
        (EType.exit, TokenT.ListItem) ∉ ev) ∧
      (∀ ev rest, listStart true ci isTB intr input = StartOutcome.proceeded ev rest →
        ev.head? = some (EType.enter, TokenT.ListItem)) := by
  intro ci isTB intr input
  have hind := indentEvents_cases ci input
  refine ⟨by rw [listStart, if_neg (by exact Bool.false_ne_true)], ?_, ?_⟩
  · intro ev h
    rw [listStart, if_pos rfl] at h
    have hshape : ev = (EType.enter, TokenT.ListItem) :: indentEvents ci input ∨
        ev = ((EType.enter, TokenT.ListItem) :: indentEvents ci input) ++
          [(EType.enter, TokenT.ListItemPre),
           (EType.enter, TokenT.ListItemValue)] := by
      split at h
      · cases h
        exact Or.inl rfl
      · rename_i b brest heq
        by_cases hm : (b == 42 || b == 43 || b == 45) = true
        · rw [if_pos hm] at h
          by_cases htb : isTB (b :: brest) = true
          · rw [if_pos htb] at h
            cases h
            exact Or.inl rfl
          · rw [if_neg htb] at h
            cases h
        · rw [if_neg hm] at h
          by_cases hd : (isAsciiDigit b && (!intr || b == 49)) = true
          · rw [if_pos hd] at h
            exact Or.inr ((insideEv_events intr (b :: brest) 0 _).1 ev h)
          · rw [if_neg hd] at h
            cases h
            exact Or.inl rfl
    rcases hshape with rfl | rfl <;> rcases hind with hie | hie <;> rw [hie] <;>
      exact ⟨rfl, by decide⟩
  · intro ev rest h
    rw [listStart, if_pos rfl] at h
    have hshape : ev = ((EType.enter, TokenT.ListItem) ::
          indentEvents ci input) ++
          [(EType.enter, TokenT.ListItemPre),
           (EType.enter, TokenT.ListItemMarker),
           (EType.exit, TokenT.ListItemMarker)] ∨
        ev = (((EType.enter, TokenT.ListItem) :: indentEvents ci input) ++
          [(EType.enter, TokenT.ListItemPre),
           (EType.enter, TokenT.ListItemValue)]) ++
          [(EType.exit, TokenT.ListItemValue),
           (EType.enter, TokenT.ListItemMarker),
           (EType.exit, TokenT.ListItemMarker)] := by
      split at h
      · cases h
      · rename_i b brest heq
        by_cases hm : (b == 42 || b == 43 || b == 45) = true
        · rw [if_pos hm] at h
          by_cases htb : isTB (b :: brest) = true
          · rw [if_pos htb] at h
            cases h
          · rw [if_neg htb] at h
            cases h
            exact Or.inl rfl
        · rw [if_neg hm] at h
          by_cases hd : (isAsciiDigit b && (!intr || b == 49)) = true
          · rw [if_pos hd] at h
            exact Or.inr ((insideEv_events intr (b :: brest) 0 _).2 ev rest h)
          · rw [if_neg hd] at h
            cases h
    rcases hshape with rfl | rfl <;> rcases hind with hie | hie <;> rw [hie] <;> rfl

/-- Claim C10 witness: a disabled construct emits nothing; an enabled one
leaves its unmatched `Enter(ListItem)` behind on the `_ => Nok` path. -/
theorem list_start_events_wit :
    listStart false false (fun _ => false) false [120] = StartOutcome.nok [] ∧
    (([(EType.enter, TokenT.ListItem)] : List (EType × TokenT)).head? =
        some (EType.enter, TokenT.ListItem) ∧
      (EType.exit, TokenT.ListItem) ∉
        ([(EType.enter, TokenT.ListItem)] : List (EType × TokenT))) := by
  constructor
  · exact (list_start_events false (fun _ => false) false [120]).1
  · exact (list_start_events false (fun _ => false) false [120]).2.1
      [(EType.enter, TokenT.ListItem)] (by decide)

/-- Claim C9: `micromark` is `micromark_with_options` at the default
compile options, and the translation is a pure (deterministic) function of
the input and options. -/
theorem micromark_default :
    ∀ {E C : Type} (parse : String → E × C)
      (compile : E → C → CompileOptions → String) (value : String),
      micromark parse compile value =
        micromark_with_options parse compile value CompileOptions.default ∧
      CompileOptions.default = ⟨false⟩ ∧
      (∀ (v₁ v₂ : String) (o₁ o₂ : CompileOptions), v₁ = v₂ → o₁ = o₂ →
        micromark_with_options parse compile v₁ o₁ =
          micromark_with_options parse compile v₂ o₂) := by
  intro E C parse compile value
  refine ⟨rfl, rfl, ?_⟩
  intro v₁ v₂ o₁ o₂ hv ho
  rw [hv, ho]

/-- Claim C9 witness: at a concrete parser/compiler pair, `micromark`
agrees with `micromark_with_options` at the default options. -/
theorem micromark_default_wit :
    micromark (fun s => (s, ())) (fun e _ o =>
        if o.allow_dangerous_html then e else "") "a" =
      micromark_with_options (fun s => (s, ())) (fun e _ o =>
        if o.allow_dangerous_html then e else "") "a" CompileOptions.default ∧
    micromark_with_options (fun s => (s, ())) (fun e _ o =>
        if o.allow_dangerous_html then e else "") "a" CompileOptions.default =
      micromark_with_options (fun s => (s, ())) (fun e _ o =>
        if o.allow_dangerous_html then e else "") "a" ⟨false⟩ := by
  constructor
  · exact (micromark_default (fun s => (s, ())) (fun e _ o =>
      if o.allow_dangerous_html then e else "") "a").1
  · exact (micromark_default (fun s => (s, ())) (fun e _ o =>
      if o.allow_dangerous_html then e else "") "a").2.2 "a" "a"
      CompileOptions.default ⟨false⟩ rfl
      (micromark_default (fun s => (s, ())) (fun e _ o =>
        if o.allow_dangerous_html then e else "") "a").2.1

end MD
